import Mathlib

/-!
Shallow embedding of `src/plot.py`, a single-pass script that loads a
time-series CSV, classifies columns into EEG, ECG and reference (CM)
groups, optionally downsamples and min-max-normalizes, and builds a
two-panel figure.

Modelling conventions:
  - a pandas numeric series is a `List (Option ℚ)`; `none` models a
    missing value (NaN), and arithmetic through `Option.map` models the
    IEEE rule that any arithmetic on NaN yields NaN (in particular
    `NaN * 0.0 = NaN`);
  - `series.min()` and `series.max()` (pandas default `skipna=True`) are
    the minimum and maximum over the non-missing entries, `none` when
    there are no non-missing entries (`pd.isna` on the result);
  - a data frame is represented by its list of column names when only
    classification is at stake, and by per-column series when values are;
  - Python string operations `str.lower` and `str.startswith` are
    modelled character-wise over `String.data`.
-/

/-- Characterwise lowercasing of a string; models Python `str.lower()`
    (the prefixes compared in `plot.py` are pure ASCII). -/
def strLower (s : String) : String := ⟨s.data.map Char.toLower⟩

/-- Models Python `s.startswith(p)`: the characters of `p` form an
    initial segment of the characters of `s`. -/
def strStartsWith (s p : String) : Bool := s.data.take p.data.length == p.data

/-- EEG electrode labels, `plot.py` lines 31-35 (`EEG_CANDIDATES`). -/
def EEG_CANDIDATES : List String :=
  ["Fz", "Cz", "P3", "C3", "F3", "F4", "C4", "P4",
   "Fp1", "Fp2", "T3", "T4", "T5", "T6", "O1", "O2",
   "F7", "F8", "A1", "A2", "Pz"]

/-- Exact names of always-dropped columns, `plot.py` lines 38-40
    (`IGNORE_EXACT`; a Python set used only for membership, modelled as
    a list). -/
def IGNORE_EXACT : List String :=
  ["Trigger", "Time_Offset", "ADC_Status", "ADC_Sequence", "Event", "Comments"]

/-- `is_ignored_column`, `plot.py` lines 99-105: a column is dropped when
    its name is in `IGNORE_EXACT` or it starts with `X3:` exactly or
    after lowercasing. -/
def is_ignored_column (col : String) : Bool :=
  if IGNORE_EXACT.contains col then true
  else if strStartsWith col "X3:" || strStartsWith (strLower col) "x3:" then true
  else false

/-- `detect_channels`, `plot.py` lines 80-96, abstracted over the list of
    column names of the data frame (`c in df.columns` becomes list
    membership). Returns the EEG channel list, the ECG channel list and
    the optional CM channel. -/
def detect_channels (columns : List String) (include_ecg include_cm : Bool) :
    List String × List String × Option String :=
  let eeg_channels := EEG_CANDIDATES.filter (fun c => columns.contains c)
  let ecg_channels :=
    (if include_ecg && columns.contains "X1:LEOG" then ["X1:LEOG"] else []) ++
    (if include_ecg && columns.contains "X2:REOG" then ["X2:REOG"] else [])
  let cm_channel := if include_cm && columns.contains "CM" then some "CM" else none
  (eeg_channels, ecg_channels, cm_channel)

/-- One of the three fatal failure kinds named by the specification. -/
inductive FatalFailure where
  | inputNotFound
  | parseError
  | validationError
  deriving DecidableEq

/-- Exit status of a Python process that dies from an exception no caller
    catches: the interpreter terminates with status 1. In `plot.py` both
    the re-raise in `load_data` (line 69) and the `ValueError` for a
    missing `Time` column (line 76) escape `main` uncaught. -/
def pythonUncaughtExceptionExitCode : Nat := 1

/-- Process exit code of each fatal failure of `plot.py`: the missing
    input path calls `sys.exit(1)` (line 198); the parse failure and the
    missing-`Time` validation failure are uncaught exceptions. -/
def fatalExitCode : FatalFailure → Nat
  | FatalFailure.inputNotFound => 1
  | FatalFailure.parseError => pythonUncaughtExceptionExitCode
  | FatalFailure.validationError => pythonUncaughtExceptionExitCode

/-- Exit code used by `main` when no plottable channel was detected,
    `plot.py` line 216 (`sys.exit(2)`). -/
def NoChannelsExitCode : Nat := 2

/-- Column names surviving the drop step of `main`, `plot.py` lines
    202-205: `df.drop(columns=drop_cols)` keeps exactly the columns that
    are not ignored, in their original order. -/
def keptColumns (columns : List String) : List String :=
  columns.filter (fun c => !(is_ignored_column c))

/-- Result of the classification stage of `main`: either the fatal
    no-channels exit (with the column names printed to stderr for
    diagnosis) or the classified channel groups to plot. -/
inductive ClassifyOutcome where
  | noChannels (exitCode : Nat) (columnsFound : List String)
  | proceed (eeg_channels ecg_channels : List String) (cm_channel : Option String)
  deriving DecidableEq

/-- Classification stage of `main`, `plot.py` lines 202-216: drop ignored
    columns, detect channels with the inclusion flags derived from the
    `--no-ecg` and `--no-cm` switches, and exit with code 2 (printing the
    remaining column names) when all three groups are empty. -/
def mainClassify (columns : List String) (no_ecg no_cm : Bool) : ClassifyOutcome :=
  let kept := keptColumns columns
  match detect_channels kept (!no_ecg) (!no_cm) with
  | (eeg_channels, ecg_channels, cm_channel) =>
    if eeg_channels.isEmpty && ecg_channels.isEmpty && cm_channel.isNone then
      ClassifyOutcome.noChannels NoChannelsExitCode kept
    else
      ClassifyOutcome.proceed eeg_channels ecg_channels cm_channel

/-- A pandas numeric series: entries in order, `none` for a missing
    value. -/
abbrev Series := List (Option ℚ)

/-- The non-missing entries of a series, in order. -/
def seriesValues (s : Series) : List ℚ := s.filterMap id

/-- `series.min()` with pandas default `skipna=True`: `none` when every
    entry is missing. -/
def seriesMin (s : Series) : Option ℚ := (seriesValues s).min?

/-- `series.max()` with pandas default `skipna=True`: `none` when every
    entry is missing. -/
def seriesMax (s : Series) : Option ℚ := (seriesValues s).max?

/-- `minmax_normalize`, `plot.py` lines 108-113. The degenerate branch
    returns `series * 0.0`, which keeps missing entries missing (NaN
    times 0 is NaN) and zeroes the rest; the main branch applies the
    affine map entrywise, with missing entries propagating. -/
def minmax_normalize (series : Series) : Series :=
  match seriesMin series, seriesMax series with
  | some s_min, some s_max =>
    if s_max = s_min then series.map (Option.map (fun v => v * 0))
    else series.map (Option.map (fun v => 2 * (v - s_min) / (s_max - s_min) - 1))
  | _, _ => series.map (Option.map (fun v => v * 0))

/-- One plotted line of the figure: legend name, y-series, subplot row
    and whether it sits on the secondary y-axis. -/
structure Trace where
  name : String
  y : Series
  row : Nat
  secondary_y : Bool

/-- EEG trace construction, `plot.py` lines 132-142: the raw series is
    used unconverted; normalization and the " (norm)" suffix apply only
    when `normalize` is set. -/
def eegTrace (normalize : Bool) (ch : String) (raw : Series) : Trace :=
  if normalize then ⟨ch ++ " (norm)", minmax_normalize raw, 1, false⟩
  else ⟨ch, raw, 1, false⟩

/-- ECG trace construction, `plot.py` lines 145-155: the raw series is
    first multiplied by 1000 (mV to µV), then normalized when `normalize`
    is set. -/
def ecgTrace (normalize : Bool) (ch : String) (raw : Series) : Trace :=
  let y := raw.map (Option.map (fun v => v * 1000))
  if normalize then ⟨ch ++ " (norm)", minmax_normalize y, 1, true⟩
  else ⟨ch ++ " (µV)", y, 1, true⟩

/-- CM trace construction, `plot.py` lines 158-168: the raw series is
    used unconverted; normalization applies only when `normalize` is
    set. -/
def cmTrace (normalize : Bool) (ch : String) (raw : Series) : Trace :=
  if normalize then ⟨ch ++ " (norm)", minmax_normalize raw, 2, false⟩
  else ⟨ch, raw, 2, false⟩

/-- Row downsampling of `load_data`, `plot.py` line 72: `df.iloc[::n]`
    keeps the first row, then skips `n - 1` rows, and so on. The list
    result is contiguously indexed from 0, which models
    `reset_index(drop=True)`. -/
def slice_every {α : Type} (l : List α) (n : Nat) : List α :=
  match l with
  | [] => []
  | x :: xs => x :: slice_every (xs.drop (n - 1)) n
termination_by l.length
decreasing_by simp; omega

/-- Downsampling step of `load_data`, `plot.py` lines 71-72: applied only
    when the stride is truthy and greater than 1. -/
def downsampleRows {α : Type} (rows : List α) (downsample : Nat) : List α :=
  if downsample ≠ 0 ∧ downsample > 1 then slice_every rows downsample else rows

instance : Std.Antisymm (fun a b : ℚ => a ≤ b) :=
  ⟨fun h1 h2 => le_antisymm h1 h2⟩

/-- Characterization of `List.min?` over the rationals. -/
theorem rat_min_eq_some_iff {l : List ℚ} {a : ℚ} :
    l.min? = some a ↔ a ∈ l ∧ ∀ b ∈ l, a ≤ b :=
  List.min?_eq_some_iff (fun _ => le_refl _) min_choice (fun _ _ _ => le_min_iff)

/-- Characterization of `List.max?` over the rationals. -/
theorem rat_max_eq_some_iff {l : List ℚ} {a : ℚ} :
    l.max? = some a ↔ a ∈ l ∧ ∀ b ∈ l, b ≤ a :=
  List.max?_eq_some_iff (fun _ => le_refl _) max_choice (fun _ _ _ => max_le_iff)

/-- The attained minimum of a series is at most its attained maximum. -/
theorem seriesMin_le_seriesMax {s : Series} {mn mx : ℚ}
    (hmin : seriesMin s = some mn) (hmax : seriesMax s = some mx) : mn ≤ mx := by
  obtain ⟨hmem, _⟩ := rat_min_eq_some_iff.mp hmin
  obtain ⟨_, hle⟩ := rat_max_eq_some_iff.mp hmax
  exact hle mn hmem

/-- Entrywise mapping of the non-missing entries commutes with taking the
    list of non-missing entries. -/
theorem seriesValues_map (f : ℚ → ℚ) (s : Series) :
    seriesValues (s.map (Option.map f)) = (seriesValues s).map f := by
  unfold seriesValues
  rw [List.filterMap_map, List.map_filterMap]
  rfl

/-- A monotone map commutes with `List.min?` over the rationals. -/
theorem min_map_of_monotone {f : ℚ → ℚ} (hf : Monotone f) {l : List ℚ} {a : ℚ}
    (h : l.min? = some a) : (l.map f).min? = some (f a) := by
  obtain ⟨hmem, hle⟩ := rat_min_eq_some_iff.mp h
  refine rat_min_eq_some_iff.mpr ⟨List.mem_map_of_mem f hmem, ?_⟩
  intro b hb
  obtain ⟨c, hc, rfl⟩ := List.mem_map.mp hb
  exact hf (hle c hc)

/-- A monotone map commutes with `List.max?` over the rationals. -/
theorem max_map_of_monotone {f : ℚ → ℚ} (hf : Monotone f) {l : List ℚ} {a : ℚ}
    (h : l.max? = some a) : (l.map f).max? = some (f a) := by
  obtain ⟨hmem, hle⟩ := rat_max_eq_some_iff.mp h
  refine rat_max_eq_some_iff.mpr ⟨List.mem_map_of_mem f hmem, ?_⟩
  intro b hb
  obtain ⟨c, hc, rfl⟩ := List.mem_map.mp hb
  exact hf (hle c hc)

/-- In the non-degenerate case `minmax_normalize` is the entrywise affine
    map, with missing entries propagated. -/
theorem minmax_normalize_eq_map {s : Series} {mn mx : ℚ}
    (hmin : seriesMin s = some mn) (hmax : seriesMax s = some mx) (hne : mx ≠ mn) :
    minmax_normalize s = s.map (Option.map (fun v => 2 * (v - mn) / (mx - mn) - 1)) := by
  unfold minmax_normalize
  rw [hmin, hmax]
  simp [hne]

/-- In every degenerate case (`min` missing, `max` missing, or the two
    equal) `minmax_normalize` returns `series * 0.0`. -/
theorem minmax_normalize_degenerate {s : Series} (h : seriesMax s = seriesMin s) :
    minmax_normalize s = s.map (Option.map (fun v => v * 0)) := by
  unfold minmax_normalize
  rcases hmn : seriesMin s with _ | mn
  · rcases hmx : seriesMax s with _ | mx
    · rfl
    · rfl
  · rcases hmx : seriesMax s with _ | mx
    · rfl
    · rw [hmn, hmx] at h
      have : mx = mn := by injection h
      simp [this]

/-- Number of rows kept by a stride-`n` slice: the ceiling of
    `length / n`. -/
theorem slice_every_length {α : Type} (l : List α) (n : Nat) :
    0 < n → (slice_every l n).length = (l.length + n - 1) / n := by
  induction l, n using slice_every.induct with
  | case1 n =>
    intro hn
    simp only [slice_every, List.length_nil, Nat.zero_add]
    symm
    exact Nat.div_eq_of_lt (by omega)
  | case2 n x xs IH =>
    intro hn
    simp only [slice_every, List.length_cons, IH hn, List.length_drop]
    have h1 : xs.length + 1 + n - 1 = xs.length + n := by omega
    rw [h1, Nat.add_div_right _ hn]
    rcases Nat.lt_or_ge xs.length (n - 1) with hc | hc
    · have h2 : xs.length - (n - 1) = 0 := by omega
      rw [h2, Nat.div_eq_of_lt (show 0 + n - 1 < n by omega),
        Nat.div_eq_of_lt (show xs.length < n by omega)]
    · have h2 : xs.length - (n - 1) + n - 1 = xs.length := by omega
      rw [h2]

/-- Entry `j` of a stride-`n` slice is entry `j * n` of the original
    list. -/
theorem slice_every_getElem {α : Type} (l : List α) (n : Nat) :
    0 < n → ∀ j : Nat, (slice_every l n)[j]? = l[j * n]? := by
  induction l, n using slice_every.induct with
  | case1 n =>
    intro _ j
    simp [slice_every]
  | case2 n x xs IH =>
    intro hn j
    cases j with
    | zero => simp [slice_every]
    | succ j =>
      have hk : (j + 1) * n = n - 1 + j * n + 1 := by
        rw [Nat.succ_mul]; omega
      simp only [slice_every, hk, List.getElem?_cons_succ]
      rw [IH hn j, List.getElem?_drop]

/-- The non-missing entries of a constant series of `some c` form the
    constant list of `c`. -/
theorem seriesValues_replicate (k : Nat) (c : ℚ) :
    seriesValues (List.replicate k (some c)) = List.replicate k c := by
  induction k with
  | zero => rfl
  | succ k IH => simp only [List.replicate_succ, seriesValues, List.filterMap_cons] at IH ⊢; simp [IH]

/-- Min-max normalization of a constant series yields the all-zero series
    of the same length. -/
theorem minmax_normalize_replicate (k : Nat) (c : ℚ) :
    minmax_normalize (List.replicate k (some c)) = List.replicate k (some 0) := by
  cases k with
  | zero => rfl
  | succ k =>
    have hvals : seriesValues (List.replicate (k + 1) (some c)) = List.replicate (k + 1) c :=
      seriesValues_replicate _ _
    have hmem : c ∈ List.replicate (k + 1) c := List.mem_replicate.mpr ⟨Nat.succ_ne_zero k, rfl⟩
    have hall : ∀ b ∈ List.replicate (k + 1) c, b = c := fun b hb => (List.mem_replicate.mp hb).2
    have hmin : seriesMin (List.replicate (k + 1) (some c)) = some c := by
      unfold seriesMin
      rw [hvals]
      exact rat_min_eq_some_iff.mpr ⟨hmem, fun b hb => le_of_eq (hall b hb).symm⟩
    have hmax : seriesMax (List.replicate (k + 1) (some c)) = some c := by
      unfold seriesMax
      rw [hvals]
      exact rat_max_eq_some_iff.mpr ⟨hmem, fun b hb => le_of_eq (hall b hb)⟩
    have hdeg := minmax_normalize_degenerate (s := List.replicate (k + 1) (some c))
      (by rw [hmin, hmax])
    rw [hdeg, List.map_replicate]
    simp

/-- C1 counterexample: it is not the case that the three fatal failures
    of `plot.py` all have non-zero exit codes that are pairwise distinct:
    the missing-input exit code is 1, and both the parse failure and the
    missing-`Time` validation failure terminate the interpreter with the
    same code 1 of an uncaught exception. -/
theorem c1_distinct_exit_codes_counterexample :
    ¬ (fatalExitCode FatalFailure.inputNotFound ≠ 0 ∧
       fatalExitCode FatalFailure.parseError ≠ 0 ∧
       fatalExitCode FatalFailure.validationError ≠ 0 ∧
       fatalExitCode FatalFailure.inputNotFound ≠ fatalExitCode FatalFailure.parseError ∧
       fatalExitCode FatalFailure.inputNotFound ≠ fatalExitCode FatalFailure.validationError ∧
       fatalExitCode FatalFailure.parseError ≠ fatalExitCode FatalFailure.validationError) := by
  decide

/-- C1 (amended): each of the three fatal failures (InputNotFound,
    ParseError, ValidationError) terminates the process with a non-zero
    exit code, but the three codes coincide: all of them are 1, because
    the missing-input path calls `sys.exit(1)` while the other two escape
    as uncaught exceptions, which exit the interpreter with code 1. -/
theorem c1_exit_codes_all_one :
    0 < fatalExitCode FatalFailure.inputNotFound ∧
    0 < fatalExitCode FatalFailure.parseError ∧
    0 < fatalExitCode FatalFailure.validationError ∧
    fatalExitCode FatalFailure.inputNotFound = 1 ∧
    fatalExitCode FatalFailure.parseError = 1 ∧
    fatalExitCode FatalFailure.validationError = 1 := by
  decide

/-- C2 counterexample: on the series whose single entry is missing, the
    degenerate branch of `minmax_normalize` does not return an all-zero
    series: `NaN * 0.0` is `NaN`, so the missing entry stays missing. -/
theorem c2_all_zero_counterexample :
    ¬ (∀ o ∈ minmax_normalize ([none] : Series), o = some 0) := by
  intro h
  have hmem : (none : Option ℚ) ∈ minmax_normalize ([none] : Series) := by
    have he : minmax_normalize ([none] : Series) = [none] := rfl
    rw [he]
    exact List.mem_singleton.mpr rfl
  exact Option.noConfusion (h none hmem)

/-- C2 (amended): for every series that is empty, contains only missing
    values, or whose maximum equals its minimum, min-max normalization
    returns a series of the same length in which every non-missing entry
    is 0 and every missing entry stays missing. -/
theorem c2_degenerate_normalization {s : Series}
    (hdeg : s = [] ∨ (∀ o ∈ s, o = none) ∨ seriesMax s = seriesMin s) :
    (minmax_normalize s).length = s.length ∧
    minmax_normalize s = s.map (Option.map (fun _ => (0 : ℚ))) := by
  have hzero : Option.map (fun v : ℚ => v * 0) = Option.map (fun _ : ℚ => (0 : ℚ)) := by
    funext o
    cases o <;> simp
  have hbranch : minmax_normalize s = s.map (Option.map (fun v => v * 0)) := by
    rcases hdeg with h | h | h
    · subst h; rfl
    · have hv : seriesValues s = [] := List.filterMap_eq_nil_iff.mpr h
      have h1 : seriesMax s = seriesMin s := by
        unfold seriesMax seriesMin
        rw [hv]
        rfl
      exact minmax_normalize_degenerate h1
    · exact minmax_normalize_degenerate h
  rw [hbranch, hzero]
  exact ⟨List.length_map _ _, rfl⟩

/-- C2 witness: the constant series with a missing entry in the middle is
    degenerate, and normalizes to zeros with the missing entry kept. -/
theorem c2_degenerate_normalization_witness :
    (minmax_normalize [some 5, none, some 5]).length = 3 ∧
    minmax_normalize [some 5, none, some 5] =
      ([some 5, none, some 5] : Series).map (Option.map (fun _ => (0 : ℚ))) := by
  have h := c2_degenerate_normalization (s := [some 5, none, some 5])
    (Or.inr (Or.inr (by norm_num [seriesMax, seriesMin, seriesValues, List.filterMap,
      List.min?, List.max?, List.foldl, min_def, max_def])))
  simpa using h

/-- C3: for every table of rows and stride greater than 1, downsampling
    keeps exactly the rows at original indices 0, n, 2n, and so on (entry
    j of the result is entry j * n of the input, hence exactly
    ceil(length / n) rows survive, contiguously re-indexed from 0 in the
    original order), and stride 1 leaves the table unchanged. -/
theorem c3_downsample_stride {α : Type} (rows : List α) (n : Nat) (hn : 1 < n) :
    (downsampleRows rows n).length = (rows.length + n - 1) / n ∧
    (∀ j : Nat, (downsampleRows rows n)[j]? = rows[j * n]?) ∧
    downsampleRows rows 1 = rows := by
  have hcond : n ≠ 0 ∧ n > 1 := ⟨by omega, hn⟩
  refine ⟨?_, ?_, ?_⟩
  · unfold downsampleRows
    rw [if_pos hcond]
    exact slice_every_length rows n (by omega)
  · intro j
    unfold downsampleRows
    rw [if_pos hcond]
    exact slice_every_getElem rows n (by omega) j
  · unfold downsampleRows
    rw [if_neg (by omega)]

/-- C3 witness: stride 2 on a five-row table keeps rows 0, 2 and 4. -/
theorem c3_downsample_stride_witness :
    (downsampleRows [10, 20, 30, 40, 50] 2).length = 3 ∧
    (downsampleRows [10, 20, 30, 40, 50] 2)[1]? = some 30 ∧
    downsampleRows [10, 20, 30, 40, 50] 1 = [10, 20, 30, 40, 50] := by
  obtain ⟨h1, h2, h3⟩ := c3_downsample_stride [10, 20, 30, 40, 50] 2 (by omega)
  refine ⟨by simpa using h1, ?_, h3⟩
  have := h2 1
  simpa using this

/-- The affine map of min-max normalization is monotone when the minimum
    is strictly below the maximum. -/
theorem normalize_map_monotone {mn mx : ℚ} (h : mn < mx) :
    Monotone (fun v : ℚ => 2 * (v - mn) / (mx - mn) - 1) := by
  intro a b hab
  have hpos : (0 : ℚ) < mx - mn := by linarith
  have h2 : 2 * (a - mn) ≤ 2 * (b - mn) := by linarith
  have h3 : 2 * (a - mn) / (mx - mn) ≤ 2 * (b - mn) / (mx - mn) := by gcongr
  simpa using sub_le_sub_right h3 1

/-- C4: for every series with at least one non-missing value whose
    maximum differs from its minimum, `minmax_normalize` maps each entry
    v to 2 * (v - min) / (max - min) - 1 (missing entries propagating),
    and the minimum and maximum of the normalized result are exactly -1
    and 1. -/
theorem c4_nondegenerate_normalization {s : Series} {mn mx : ℚ}
    (hmin : seriesMin s = some mn) (hmax : seriesMax s = some mx) (hne : mn ≠ mx) :
    minmax_normalize s = s.map (Option.map (fun v => 2 * (v - mn) / (mx - mn) - 1)) ∧
    seriesMin (minmax_normalize s) = some (-1) ∧
    seriesMax (minmax_normalize s) = some 1 := by
  have hne' : mx ≠ mn := fun h => hne h.symm
  have hlt : mn < mx := lt_of_le_of_ne (seriesMin_le_seriesMax hmin hmax) hne
  have hmono := normalize_map_monotone hlt
  have hsub : mx - mn ≠ 0 := sub_ne_zero.mpr hne'
  have heq := minmax_normalize_eq_map hmin hmax hne'
  refine ⟨heq, ?_, ?_⟩
  · unfold seriesMin at hmin ⊢
    rw [heq, seriesValues_map, min_map_of_monotone hmono hmin]
    congr 1
    simp
  · unfold seriesMax at hmax ⊢
    rw [heq, seriesValues_map, max_map_of_monotone hmono hmax]
    congr 1
    rw [mul_div_assoc, div_self hsub]
    norm_num

/-- C4 witness: the two-point series 0, 1 normalizes entrywise by the
    affine map and attains minimum -1 and maximum 1. -/
theorem c4_nondegenerate_normalization_witness :
    minmax_normalize [some 0, some 1] =
      ([some 0, some 1] : Series).map (Option.map (fun v => 2 * (v - 0) / (1 - 0) - 1)) ∧
    seriesMin (minmax_normalize [some 0, some 1]) = some (-1) ∧
    seriesMax (minmax_normalize [some 0, some 1]) = some 1 :=
  c4_nondegenerate_normalization
    (by norm_num [seriesMin, seriesValues, List.filterMap, List.min?, List.foldl, min_def])
    (by norm_num [seriesMax, seriesValues, List.filterMap, List.max?, List.foldl, max_def])
    (by norm_num)

/-- C10: for every series containing a missing value that still has at
    least one non-missing value and distinct extremes, the minimum and
    maximum are taken over the non-missing entries only, each non-missing
    entry is mapped by the affine formula, and each missing entry remains
    missing (not 0) in the output. -/
theorem c10_missing_values_normalization {s : Series} {mn mx : ℚ}
    (_hmiss : none ∈ s) (hmin : seriesMin s = some mn) (hmax : seriesMax s = some mx)
    (hne : mn ≠ mx) :
    (mn ∈ seriesValues s ∧ ∀ v ∈ seriesValues s, mn ≤ v) ∧
    (mx ∈ seriesValues s ∧ ∀ v ∈ seriesValues s, v ≤ mx) ∧
    (∀ i : Nat, s[i]? = some none → (minmax_normalize s)[i]? = some none) ∧
    (∀ i : Nat, ∀ v : ℚ, s[i]? = some (some v) →
      (minmax_normalize s)[i]? = some (some (2 * (v - mn) / (mx - mn) - 1))) := by
  have hne' : mx ≠ mn := fun h => hne h.symm
  have heq := minmax_normalize_eq_map hmin hmax hne'
  refine ⟨rat_min_eq_some_iff.mp hmin, rat_max_eq_some_iff.mp hmax, ?_, ?_⟩
  · intro i hi
    rw [heq, List.getElem?_map, hi]
    rfl
  · intro i v hi
    rw [heq, List.getElem?_map, hi]
    rfl

/-- C10 witness: in the series 0, missing, 2 the missing middle entry
    stays missing and the last entry is mapped by the affine formula. -/
theorem c10_missing_values_normalization_witness :
    (minmax_normalize [some 0, none, some 2])[1]? = some none ∧
    (minmax_normalize [some 0, none, some 2])[2]? =
      some (some (2 * ((2 : ℚ) - 0) / (2 - 0) - 1)) := by
  obtain ⟨_, _, h3, h4⟩ := @c10_missing_values_normalization [some 0, none, some 2] 0 2
    (by decide)
    (by norm_num [seriesMin, seriesValues, List.filterMap, List.min?, List.foldl, min_def])
    (by norm_num [seriesMax, seriesValues, List.filterMap, List.max?, List.foldl, max_def])
    (by norm_num)
  exact ⟨h3 1 rfl, h4 2 2 rfl⟩

/-- C5: the figure builder multiplies ECG series by 1000 before any other
    transform, and normalization, when enabled, is applied to the
    converted values, so a constant ECG series normalizes to all zeros
    (not NaN); EEG and CM (reference) series are used without unit
    conversion. -/
theorem c5_ecg_unit_conversion (ch : String) (raw : Series) (k : Nat) (c : ℚ) :
    (ecgTrace false ch raw).y = raw.map (Option.map (fun v => v * 1000)) ∧
    (ecgTrace true ch raw).y = minmax_normalize (raw.map (Option.map (fun v => v * 1000))) ∧
    (ecgTrace true ch (List.replicate k (some c))).y = List.replicate k (some 0) ∧
    (eegTrace false ch raw).y = raw ∧
    (eegTrace true ch raw).y = minmax_normalize raw ∧
    (cmTrace false ch raw).y = raw ∧
    (cmTrace true ch raw).y = minmax_normalize raw := by
  refine ⟨rfl, rfl, ?_, rfl, rfl, rfl, rfl⟩
  show minmax_normalize ((List.replicate k (some c)).map (Option.map (fun v => v * 1000)))
      = List.replicate k (some 0)
  rw [List.map_replicate]
  exact minmax_normalize_replicate k (c * 1000)

/-- Every detected EEG channel is an EEG candidate label present among
    the given columns. -/
theorem detect_eeg_mem {columns : List String} {e c : Bool} {ch : String}
    (h : ch ∈ (detect_channels columns e c).1) :
    ch ∈ EEG_CANDIDATES ∧ ch ∈ columns := by
  simp only [detect_channels] at h
  obtain ⟨h1, h2⟩ := List.mem_filter.mp h
  exact ⟨h1, List.elem_iff.mp h2⟩

/-- Every detected ECG channel is one of the two fixed ECG labels,
    present among the given columns, and detected only when the ECG flag
    is set. -/
theorem detect_ecg_mem {columns : List String} {e c : Bool} {ch : String}
    (h : ch ∈ (detect_channels columns e c).2.1) :
    (ch = "X1:LEOG" ∨ ch = "X2:REOG") ∧ ch ∈ columns ∧ e = true := by
  simp only [detect_channels] at h
  rcases List.mem_append.mp h with h1 | h1
  · split at h1
    · next hcond =>
      obtain ⟨he, hc⟩ := Bool.and_eq_true_iff.mp hcond
      have : ch = "X1:LEOG" := List.mem_singleton.mp h1
      subst this
      exact ⟨Or.inl rfl, List.elem_iff.mp hc, he⟩
    · cases h1
  · split at h1
    · next hcond =>
      obtain ⟨he, hc⟩ := Bool.and_eq_true_iff.mp hcond
      have : ch = "X2:REOG" := List.mem_singleton.mp h1
      subst this
      exact ⟨Or.inr rfl, List.elem_iff.mp hc, he⟩
    · cases h1

/-- The detected CM channel, when present, is the literal name CM, and
    it is present among the given columns. -/
theorem detect_cm_eq {columns : List String} {e c : Bool} {ch : String}
    (h : (detect_channels columns e c).2.2 = some ch) :
    ch = "CM" ∧ ch ∈ columns := by
  simp only [detect_channels] at h
  split at h
  · next hcond =>
    obtain ⟨_, hc⟩ := Bool.and_eq_true_iff.mp hcond
    cases h
    exact ⟨rfl, List.elem_iff.mp hc⟩
  · cases h

/-- Every column surviving the drop step is not ignored. -/
theorem keptColumns_not_ignored {columns : List String} {ch : String}
    (h : ch ∈ keptColumns columns) : is_ignored_column ch = false := by
  obtain ⟨_, h2⟩ := List.mem_filter.mp h
  simpa using h2

/-- C6: for every input column set and every setting of the inclusion
    flags, a column matching the fixed ignore set or carrying the
    (case-insensitively lowercased) X3: name prefix is dropped before
    classification and never appears in the EEG, ECG or reference
    output, while a present non-dropped EEG candidate such as Fz is still
    classified as EEG. -/
theorem c6_ignored_columns_never_classified (columns : List String) (e c : Bool)
    (ch : String) (hig : is_ignored_column ch = true) :
    (ch ∉ (detect_channels (keptColumns columns) e c).1 ∧
     ch ∉ (detect_channels (keptColumns columns) e c).2.1 ∧
     (detect_channels (keptColumns columns) e c).2.2 ≠ some ch) ∧
    ("Fz" ∈ columns → "Fz" ∈ (detect_channels (keptColumns columns) e c).1) := by
  have hnk : ch ∉ keptColumns columns := by
    intro hmem
    rw [keptColumns_not_ignored hmem] at hig
    cases hig
  refine ⟨⟨fun h => hnk (detect_eeg_mem h).2,
           fun h => hnk (detect_ecg_mem h).2.1,
           fun h => hnk (detect_cm_eq h).2⟩, ?_⟩
  intro hFz
  have hkept : "Fz" ∈ keptColumns columns :=
    List.mem_filter.mpr ⟨hFz, by decide⟩
  show "Fz" ∈ EEG_CANDIDATES.filter (fun x => (keptColumns columns).contains x)
  exact List.mem_filter.mpr ⟨by decide, List.elem_iff.mpr hkept⟩

/-- C6 witness: with columns Trigger, X3:Aux, X3:aux2, Fz the ignored
    column X3:Aux is never classified while Fz still is. -/
theorem c6_ignored_columns_never_classified_witness :
    "X3:Aux" ∉ (detect_channels (keptColumns ["Trigger", "X3:Aux", "X3:aux2", "Fz"]) true true).1 ∧
    "Fz" ∈ (detect_channels (keptColumns ["Trigger", "X3:Aux", "X3:aux2", "Fz"]) true true).1 := by
  obtain ⟨⟨h1, _, _⟩, h2⟩ := c6_ignored_columns_never_classified
    ["Trigger", "X3:Aux", "X3:aux2", "Fz"] true true "X3:Aux" (by decide)
  exact ⟨h1, h2 (by decide)⟩

/-- C7: with both inclusion flags set, the EEG output is exactly the
    present candidate labels in the fixed candidate order (a sublist of
    the candidate list, not the input column order); the ECG output
    contains X1:LEOG and then X2:REOG, each included exactly when
    present; the reference output is CM exactly when a CM column exists;
    and the concrete header Time, Fz, Cz, X1:LEOG, CM yields EEG
    [Fz, Cz], ECG [X1:LEOG] and reference CM. -/
theorem c7_classification_outputs (columns : List String) :
    (∀ ch, ch ∈ (detect_channels columns true true).1 ↔
      ch ∈ EEG_CANDIDATES ∧ ch ∈ columns) ∧
    List.Sublist (detect_channels columns true true).1 EEG_CANDIDATES ∧
    (∀ ch, ch ∈ (detect_channels columns true true).2.1 ↔
      (ch = "X1:LEOG" ∨ ch = "X2:REOG") ∧ ch ∈ columns) ∧
    List.Sublist (detect_channels columns true true).2.1 ["X1:LEOG", "X2:REOG"] ∧
    ((detect_channels columns true true).2.2 =
      if "CM" ∈ columns then some "CM" else none) ∧
    detect_channels ["Time", "Fz", "Cz", "X1:LEOG", "CM"] true true =
      (["Fz", "Cz"], ["X1:LEOG"], some "CM") := by
  refine ⟨?_, ?_, ?_, ?_, ?_, by decide⟩
  · intro ch
    constructor
    · exact detect_eeg_mem
    · intro ⟨h1, h2⟩
      show ch ∈ EEG_CANDIDATES.filter (fun x => columns.contains x)
      exact List.mem_filter.mpr ⟨h1, List.elem_iff.mpr h2⟩
  · exact List.filter_sublist _
  · intro ch
    constructor
    · intro h
      obtain ⟨hor, hmem, _⟩ := detect_ecg_mem h
      exact ⟨hor, hmem⟩
    · intro ⟨hor, hmem⟩
      simp only [detect_channels]
      rcases hor with rfl | rfl
      · refine List.mem_append.mpr (Or.inl ?_)
        rw [if_pos (Bool.and_eq_true_iff.mpr ⟨rfl, List.elem_iff.mpr hmem⟩)]
        exact List.mem_singleton.mpr rfl
      · refine List.mem_append.mpr (Or.inr ?_)
        rw [if_pos (Bool.and_eq_true_iff.mpr ⟨rfl, List.elem_iff.mpr hmem⟩)]
        exact List.mem_singleton.mpr rfl
  · simp only [detect_channels]
    split <;> split <;> decide
  · by_cases h : "CM" ∈ columns
    · have hc : columns.contains "CM" = true := List.elem_iff.mpr h
      simp [detect_channels, hc, h]
    · have hc : columns.contains "CM" = false :=
        Bool.eq_false_iff.mpr (fun hcc => h (List.elem_iff.mp hcc))
      simp [detect_channels, hc, h]

/-- C7 witness: instance of the classification characterization at the
    concrete header Time, Fz, Cz, X1:LEOG, CM. -/
theorem c7_classification_outputs_witness :
    ("Fz" ∈ (detect_channels ["Time", "Fz", "Cz", "X1:LEOG", "CM"] true true).1 ↔
      "Fz" ∈ EEG_CANDIDATES ∧ "Fz" ∈ ["Time", "Fz", "Cz", "X1:LEOG", "CM"]) ∧
    detect_channels ["Time", "Fz", "Cz", "X1:LEOG", "CM"] true true =
      (["Fz", "Cz"], ["X1:LEOG"], some "CM") := by
  obtain ⟨h1, _, _, _, _, h6⟩ := c7_classification_outputs ["Time", "Fz", "Cz", "X1:LEOG", "CM"]
  exact ⟨h1 "Fz", h6⟩

/-- C8: when classification of the retained columns yields zero EEG
    channels, zero ECG channels and no reference channel, `main`
    terminates with the no-channels failure exit code, which differs
    from the missing-input-path exit code, after reporting every
    remaining column name for diagnosis; the header Time, Trigger,
    X3:Aux reaches this exit. -/
theorem c8_no_channels_exit (columns : List String) (no_ecg no_cm : Bool)
    (h : detect_channels (keptColumns columns) (!no_ecg) (!no_cm) = ([], [], none)) :
    mainClassify columns no_ecg no_cm =
      ClassifyOutcome.noChannels NoChannelsExitCode (keptColumns columns) ∧
    NoChannelsExitCode ≠ fatalExitCode FatalFailure.inputNotFound ∧
    mainClassify ["Time", "Trigger", "X3:Aux"] false false =
      ClassifyOutcome.noChannels NoChannelsExitCode ["Time"] := by
  refine ⟨?_, by decide, by decide⟩
  unfold mainClassify
  simp only []
  rw [h]
  rfl

/-- C8 witness: the header Time, Trigger, X3:Aux exits with code 2,
    printing the single remaining column Time, and 2 differs from the
    missing-input exit code 1. -/
theorem c8_no_channels_exit_witness :
    mainClassify ["Time", "Trigger", "X3:Aux"] false false =
      ClassifyOutcome.noChannels NoChannelsExitCode ["Time"] ∧
    NoChannelsExitCode ≠ fatalExitCode FatalFailure.inputNotFound := by
  obtain ⟨-, h2, h3⟩ := c8_no_channels_exit ["Time", "Trigger", "X3:Aux"] false false (by decide)
  exact ⟨h3, h2⟩

/-- C9: for every input column set and every setting of the inclusion
    flags, the three classifier outputs are mutually exclusive: no name
    is in both the EEG and ECG lists, and the reference channel is in
    neither list. -/
theorem c9_groups_mutually_exclusive (columns : List String) (e c : Bool) :
    (∀ ch, ch ∈ (detect_channels columns e c).1 →
      ch ∉ (detect_channels columns e c).2.1) ∧
    (∀ ch, ch ∈ (detect_channels columns e c).1 →
      (detect_channels columns e c).2.2 ≠ some ch) ∧
    (∀ ch, ch ∈ (detect_channels columns e c).2.1 →
      (detect_channels columns e c).2.2 ≠ some ch) := by
  refine ⟨?_, ?_, ?_⟩
  · intro ch h1 h2
    have he := (detect_eeg_mem h1).1
    rcases (detect_ecg_mem h2).1 with rfl | rfl <;> revert he <;> decide
  · intro ch h1 h2
    have he := (detect_eeg_mem h1).1
    obtain ⟨rfl, -⟩ := detect_cm_eq h2
    revert he
    decide
  · intro ch h1 h2
    obtain ⟨hor, -, -⟩ := detect_ecg_mem h1
    obtain ⟨rfl, -⟩ := detect_cm_eq h2
    rcases hor with h | h <;> exact absurd h (by decide)

/-- C9 witness: with columns Fz, X1:LEOG, CM the detected EEG channel Fz
    is not among the detected ECG channels. -/
theorem c9_groups_mutually_exclusive_witness :
    "Fz" ∉ (detect_channels ["Fz", "X1:LEOG", "CM"] true true).2.1 :=
  (c9_groups_mutually_exclusive ["Fz", "X1:LEOG", "CM"] true true).1 "Fz" (by decide)
